import Mathlib

/-!
Shallow embedding of the lexica core domain layer (src/core/entry.ts,
src/core/score.ts, src/core/result.ts, src/core/commands.ts,
src/core/test-mode.ts) and proofs about the spec claims.

Modelling conventions:
* Branded string types (Term, Meaning, DictionaryName, ...) are `String`.
* `Score` is `Nat`: score values originate only from `parseScore`
  (non-negative integer), `defaultScore` (0), `incrementScore` (+1) and
  `decrementScore` (floored at 0), so they are always natural numbers.
* Arrays are `List`, `undefined`-able values are `Option`.
* TS `findIndex` returning `-1 | index` is modelled as `Option Nat`
  (the `-1` sentinel together with the `index === -1` checks in the
  source is exactly the `Option` pattern).
* `cloneEntries` performs a shallow copy, which is the identity under
  value semantics, so it is omitted.
* The injected `rng : () => number` is consumed exactly once per
  selection call, so it is modelled by the single sampled value, a
  rational `r`; floating-point arithmetic is modelled by exact `ℚ`.
-/

namespace Lexica

/-- Error kinds of `LexicaError` in src/core/result.ts. -/
inductive ErrorKind where
  | invalidInput
  | notFound
  | conflict
  | fileIo
  | aiFailed
deriving DecidableEq, Repr

/-- `LexicaError` from src/core/result.ts. -/
structure LexicaError where
  kind : ErrorKind
  reason : String
deriving DecidableEq, Repr

/-- `Result<T>` from src/core/result.ts (byethrow's Success/Failure shape). -/
inductive Result (α : Type) where
  | Success (value : α)
  | Failure (error : LexicaError)
deriving DecidableEq, Repr

/-- `succeed` from src/core/result.ts. -/
def succeed {α : Type} (value : α) : Result α := .Success value

/-- `failNotFound` from src/core/result.ts. -/
def failNotFound {α : Type} (reason : String) : Result α :=
  .Failure { kind := .notFound, reason := reason }

/-- `Language` from src/core/types.ts. -/
structure Language where
  source : String
  target : String
deriving DecidableEq, Repr

/-- `Dictionary` from src/core/types.ts. -/
structure Dictionary where
  name : String
  language : Language
deriving DecidableEq, Repr

/-- `Entry` from src/core/types.ts: term, meanings, optional examples, score. -/
structure Entry where
  term : String
  meanings : List String
  examples : Option (List String)
  score : Nat
deriving DecidableEq, Repr

/-- `AppState` from src/core/types.ts. -/
structure AppState where
  dictionary : Dictionary
  entries : List Entry
deriving DecidableEq, Repr

/-- `defaultScore` from src/core/score.ts. -/
def defaultScore : Nat := 0

/-- `scoreToNumber` from src/core/score.ts (identity coercion). -/
def scoreToNumber (score : Nat) : Nat := score

/-- `createEntry` from src/core/entry.ts. The two optional TS parameters
`examples?` and `score?` are explicit `Option` arguments. -/
def createEntry (term : String) (meanings : List String)
    (examples : Option (List String)) (score : Option Nat) : Entry :=
  let resolvedScore := score.getD defaultScore
  match examples with
  | none => { term := term, meanings := meanings, examples := none, score := resolvedScore }
  | some ex => { term := term, meanings := meanings, examples := some ex, score := resolvedScore }

/-- `overwriteExamples` from src/core/entry.ts. -/
def overwriteExamples (entry : Entry) (examples : List String) : Entry :=
  { entry with examples := some examples }

/-- `findEntryIndex` from src/core/entry.ts: index of the first entry whose
term equals the given term (`Option Nat` in place of the `-1` sentinel). -/
def findEntryIndex : List Entry → String → Option Nat
  | [], _ => none
  | e :: es, term =>
      if e.term == term then some 0
      else (findEntryIndex es term).map (· + 1)

/-- `upsertEntry` from src/core/entry.ts. -/
def upsertEntry (entries : List Entry) (term : String) (meaning : String) :
    Result (List Entry × Entry) :=
  match findEntryIndex entries term with
  | none =>
      let entry := createEntry term [meaning] none none
      succeed (entries ++ [entry], entry)
  | some index =>
      match entries[index]? with
      | none => failNotFound "Entry not found"
      | some existing =>
          let updated : Entry := { existing with meanings := existing.meanings ++ [meaning] }
          succeed (entries.set index updated, updated)

/-- `findEntry` from src/core/entry.ts. -/
def findEntry (entries : List Entry) (term : String) : Result Entry :=
  match findEntryIndex entries term with
  | none => failNotFound "Entry not found"
  | some index =>
      match entries[index]? with
      | none => failNotFound "Entry not found"
      | some entry => succeed entry

/-- `replaceEntry` from src/core/entry.ts. -/
def replaceEntry (entries : List Entry) (entry : Entry) :
    Result (List Entry × Entry) :=
  match findEntryIndex entries entry.term with
  | none => failNotFound "Entry not found"
  | some index => succeed (entries.set index entry, entry)

/-- `deleteEntry` from src/core/entry.ts. -/
def deleteEntry (entries : List Entry) (term : String) : Result (List Entry) :=
  match findEntryIndex entries term with
  | none => failNotFound "Entry not found"
  | some _ => succeed (entries.filter (fun entry => entry.term != term))

/-- The loop body of `addEntryMeanings` in src/core/entry.ts: folds
`upsertEntry` over the meanings, tracking the last affected entry. -/
def addEntryMeaningsLoop (term : String) :
    List Entry → Option Entry → List String → Result (List Entry × Option Entry)
  | entries, acc, [] => succeed (entries, acc)
  | entries, _acc, meaning :: rest =>
      match upsertEntry entries term meaning with
      | .Failure e => .Failure e
      | .Success (next, entry) => addEntryMeaningsLoop term next (some entry) rest

/-- `addEntryMeanings` from src/core/entry.ts. -/
def addEntryMeanings (state : AppState) (term : String) (meanings : List String) :
    Result (AppState × Entry × String) :=
  match addEntryMeaningsLoop term state.entries none meanings with
  | .Failure e => .Failure e
  | .Success (entries, entry) =>
      succeed ({ state with entries := entries },
               entry.getD (createEntry term meanings none none),
               state.dictionary.name)

/-- `removeEntry` from src/core/entry.ts. -/
def removeEntry (state : AppState) (term : String) (meaning : Option String) :
    Result (AppState × String) :=
  match meaning with
  | none =>
      match deleteEntry state.entries term with
      | .Failure e => .Failure e
      | .Success entries =>
          succeed ({ state with entries := entries }, state.dictionary.name)
  | some meaning =>
      match findEntry state.entries term with
      | .Failure e => .Failure e
      | .Success current =>
          let filtered := current.meanings.filter (fun item => item != meaning)
          if filtered.length == current.meanings.length then
            failNotFound "Meaning not found"
          else if filtered.length == 0 then
            match deleteEntry state.entries term with
            | .Failure e => .Failure e
            | .Success entries =>
                succeed ({ state with entries := entries }, state.dictionary.name)
          else
            match replaceEntry state.entries { current with meanings := filtered } with
            | .Failure e => .Failure e
            | .Success (entries, _) =>
                succeed ({ state with entries := entries }, state.dictionary.name)

/-- `replaceEntryInAppState` from src/core/entry.ts. -/
def replaceEntryInAppState (state : AppState) (term : String)
    (meanings : List String) (examples : Option (List String)) :
    Result (AppState × Entry × String) :=
  match findEntry state.entries term with
  | .Failure e => .Failure e
  | .Success current =>
      let entry := createEntry term meanings examples (some current.score)
      match replaceEntry state.entries entry with
      | .Failure e => .Failure e
      | .Success (entries, replaced) =>
          succeed ({ state with entries := entries }, replaced, state.dictionary.name)

/-- Input record of the injected `ExampleGenerator` in src/core/commands.ts. -/
structure GenInput where
  dictionaryName : String
  language : Language
  term : String
  meaning : String
  count : Nat
deriving DecidableEq, Repr

/-- `generateExamples` from src/core/commands.ts; the async generator is an
injected pure function from its input record to a `Result`. -/
def generateExamples (state : AppState) (term : String) (meaning : String)
    (generator : GenInput → Result (List String)) (count : Nat) :
    Result (AppState × Entry × String) :=
  match findEntry state.entries term with
  | .Failure e => .Failure e
  | .Success current =>
      match generator { dictionaryName := state.dictionary.name,
                        language := state.dictionary.language,
                        term := term, meaning := meaning, count := count } with
      | .Failure e => .Failure e
      | .Success generated =>
          let updatedEntry := overwriteExamples current generated
          match replaceEntry state.entries updatedEntry with
          | .Failure e => .Failure e
          | .Success (entries, entry) =>
              succeed ({ state with entries := entries }, entry, state.dictionary.name)

/-- `TestSelection` from src/core/test-mode.ts. The TS field `example` is
named `exampleOpt` here because `example` is a Lean keyword. -/
structure TestSelection where
  entry : Entry
  exampleOpt : Option String
deriving DecidableEq, Repr

/-- `TestSelectionStrategy` from src/core/test-mode.ts: `createSelection`
may return `null`, hence `Option`. -/
structure TestSelectionStrategy where
  isEligible : Entry → Bool
  createSelection : Entry → Option TestSelection

/-- The weight `1 / (scoreToNumber(entry.score) + 1)` used by
`chooseWeightedEntry` in src/core/test-mode.ts (exact rationals model the
TS float arithmetic). -/
def entryWeight (entry : Entry) : ℚ :=
  1 / ((scoreToNumber entry.score : ℚ) + 1)

/-- The `reduce` computing `totalWeight` inside `chooseWeightedEntry`. -/
def totalWeight (entries : List Entry) : ℚ :=
  entries.foldl (fun sum entry => sum + entryWeight entry) 0

/-- The `for` loop of `chooseWeightedEntry`: walk the entries accumulating
`cursor`, returning the first entry where `pick <= cursor` (`none` when the
loop falls through without a break). -/
def chooseWalk (pick : ℚ) : List Entry → ℚ → Option Entry
  | [], _ => none
  | entry :: rest, cursor =>
      let next := cursor + entryWeight entry
      if pick ≤ next then some entry else chooseWalk pick rest next

/-- `chooseWeightedEntry` from src/core/test-mode.ts: `chosen` is
initialised to `entries[0]` and overwritten by the first loop iteration
reaching the threshold. -/
def chooseWeightedEntry (entries : List Entry) (r : ℚ) : Option Entry :=
  match entries with
  | [] => none
  | first :: _ =>
      let pick := r * totalWeight entries
      match chooseWalk pick entries 0 with
      | some entry => some entry
      | none => some first

/-- `selectTestEntry` from src/core/test-mode.ts. -/
def selectTestEntry (state : AppState) (strategy : TestSelectionStrategy) (r : ℚ) :
    Result (Option TestSelection) :=
  let eligible := state.entries.filter strategy.isEligible
  match chooseWeightedEntry eligible r with
  | none => succeed none
  | some chosen => succeed (strategy.createSelection chosen)

/-- `meaningsStrategy` from src/core/test-mode.ts; the `Set<Term>` of used
terms is modelled as a list with membership. -/
def meaningsStrategy (usedTerms : List String) : TestSelectionStrategy :=
  { isEligible := fun entry => !(usedTerms.contains entry.term),
    createSelection := fun entry => some { entry := entry, exampleOpt := none } }

/-- `selectMeaningTestEntry` from src/core/test-mode.ts. -/
def selectMeaningTestEntry (state : AppState) (usedTerms : List String) (r : ℚ) :
    Result (Option TestSelection) :=
  selectTestEntry state (meaningsStrategy usedTerms) r

/-! ### Derived notions used by the claim statements -/

/-- Number of entries carrying a given term. -/
def countTerm (entries : List Entry) (term : String) : Nat :=
  (entries.filter (fun entry => entry.term == term)).length

/-- The meanings stored for a term (`[]` when the term is absent). -/
def termMeanings (entries : List Entry) (term : String) : List String :=
  match findEntry entries term with
  | .Success entry => entry.meanings
  | .Failure _ => []

/-- The one-entry-per-term invariant of an entry collection. -/
def uniqueTerms (entries : List Entry) : Prop :=
  entries.Pairwise (fun a b => a.term ≠ b.term)

instance (entries : List Entry) : Decidable (uniqueTerms entries) :=
  List.instDecidablePairwise entries

/-- A sequence of `upsertEntry` calls with one fixed term, threading the
entry collection (the `Failure` branch is provably unreachable). -/
def upsertSeq (entries : List Entry) (term : String) : List String → List Entry
  | [] => entries
  | meaning :: rest =>
      match upsertEntry entries term meaning with
      | .Success (next, _) => upsertSeq next term rest
      | .Failure _ => entries

/-- Cumulative weight of the first `k` entries (spec-side notion used to
state the inverse-CDF property of `chooseWeightedEntry`). -/
def cumWeight (entries : List Entry) (k : Nat) : ℚ :=
  ((entries.take k).map entryWeight).sum

/-- First-match recursion computing the entries component of `upsertEntry`
(proved equal to it in `upsertEntry_eq` below). -/
def upsertList : List Entry → String → String → List Entry
  | [], term, meaning => [createEntry term [meaning] none none]
  | e :: es, term, meaning =>
      if e.term == term then { e with meanings := e.meanings ++ [meaning] } :: es
      else e :: upsertList es term meaning

/-- First-match recursion computing the entry component of `upsertEntry`. -/
def upsertListEntry : List Entry → String → String → Entry
  | [], term, meaning => createEntry term [meaning] none none
  | e :: es, term, meaning =>
      if e.term == term then { e with meanings := e.meanings ++ [meaning] }
      else upsertListEntry es term meaning

/-! ### Helper lemmas: findEntryIndex / findEntry -/

theorem getElem?_some_lt {α : Type} :
    ∀ (l : List α) (i : Nat) (a : α), l[i]? = some a → i < l.length := by
  intro l
  induction l with
  | nil => intro i a h; simp at h
  | cons x xs ih =>
      intro i a h
      cases i with
      | zero => simp
      | succ j =>
          simp only [List.getElem?_cons_succ] at h
          have := ih j a h
          simpa using Nat.succ_lt_succ this

theorem findEntryIndex_some_elem :
    ∀ (entries : List Entry) (term : String) (i : Nat),
      findEntryIndex entries term = some i →
      ∃ e, entries[i]? = some e ∧ e.term = term := by
  intro entries
  induction entries with
  | nil => intro term i h; simp [findEntryIndex] at h
  | cons x xs ih =>
      intro term i h
      by_cases hx : x.term == term
      · simp only [findEntryIndex, hx, if_pos rfl] at h
        cases h
        exact ⟨x, by simp, by exact eq_of_beq hx⟩
      · simp only [findEntryIndex, hx] at h
        rw [if_neg (by simp_all)] at h
        rcases Option.map_eq_some'.mp h with ⟨j, hj, rfl⟩
        rcases ih term j hj with ⟨e, he, ht⟩
        exact ⟨e, by simpa using he, ht⟩

theorem findEntryIndex_none_iff (entries : List Entry) (term : String) :
    findEntryIndex entries term = none ↔ ∀ e ∈ entries, e.term ≠ term := by
  induction entries with
  | nil => simp [findEntryIndex]
  | cons x xs ih =>
      by_cases hx : x.term == term
      · simp only [findEntryIndex, hx, if_pos rfl]
        constructor
        · intro h; cases h
        · intro h; exact absurd (eq_of_beq hx) (h x (by simp))
      · have hx' : x.term ≠ term := by
          intro hcontra; exact hx (by simp [hcontra])
        simp only [findEntryIndex, hx]
        rw [if_neg (by simp_all)]
        simp only [Option.map_eq_none', ih]
        constructor
        · intro h e he
          rcases List.mem_cons.mp he with rfl | hmem
          · exact hx'
          · exact h e hmem
        · intro h e he; exact h e (List.mem_cons_of_mem x he)

theorem findEntry_cons (e : Entry) (entries : List Entry) (term : String) :
    findEntry (e :: entries) term =
      if e.term == term then .Success e else findEntry entries term := by
  by_cases hx : e.term == term
  · simp [findEntry, findEntryIndex, hx, succeed]
  · rw [if_neg hx]
    have hfidx : findEntryIndex (e :: entries) term =
        (findEntryIndex entries term).map (· + 1) := by
      simp only [findEntryIndex, hx]
      rw [if_neg (by simp_all)]
    cases hfi : findEntryIndex entries term with
    | none => simp [findEntry, hfidx, hfi]
    | some i =>
        simp only [findEntry, hfidx, hfi, Option.map_some', List.getElem?_cons_succ]

theorem findEntry_success_inv :
    ∀ (entries : List Entry) (term : String) (e : Entry),
      findEntry entries term = .Success e →
      ∃ i, findEntryIndex entries term = some i ∧ entries[i]? = some e ∧ e.term = term := by
  intro entries
  induction entries with
  | nil => intro term e h; simp [findEntry, findEntryIndex, failNotFound] at h
  | cons x xs ih =>
      intro term e h
      rw [findEntry_cons] at h
      by_cases hx : x.term == term
      · rw [if_pos hx] at h
        have hxe : x = e := by injection h
        subst hxe
        exact ⟨0, by simp [findEntryIndex, hx], by simp, eq_of_beq hx⟩
      · rw [if_neg hx] at h
        rcases ih term e h with ⟨i, hfi, hg, ht⟩
        refine ⟨i + 1, ?_, by simpa using hg, ht⟩
        simp only [findEntryIndex, hx]
        rw [if_neg (by simp_all)]
        simp [hfi]

theorem findEntry_of_index_none (entries : List Entry) (term : String)
    (h : findEntryIndex entries term = none) :
    findEntry entries term = failNotFound "Entry not found" := by
  simp [findEntry, h]

theorem upsertEntry_eq (entries : List Entry) (term meaning : String) :
    upsertEntry entries term meaning =
      .Success (upsertList entries term meaning, upsertListEntry entries term meaning) := by
  induction entries with
  | nil => simp [upsertEntry, findEntryIndex, upsertList, upsertListEntry, succeed]
  | cons x xs ih =>
      by_cases hx : x.term == term
      · simp [upsertEntry, findEntryIndex, hx, upsertList, upsertListEntry, succeed]
      · have hfidx : findEntryIndex (x :: xs) term =
            (findEntryIndex xs term).map (· + 1) := by
          simp only [findEntryIndex, hx]
          rw [if_neg (by simp_all)]
        have hul : upsertList (x :: xs) term meaning = x :: upsertList xs term meaning := by
          simp only [upsertList]
          rw [if_neg (by simp_all)]
        have hue : upsertListEntry (x :: xs) term meaning = upsertListEntry xs term meaning := by
          simp only [upsertListEntry]
          rw [if_neg (by simp_all)]
        rw [hul, hue]
        cases hfi : findEntryIndex xs term with
        | none =>
            have ihe := ih
            simp only [upsertEntry, hfi, succeed] at ihe
            rw [Result.Success.injEq, Prod.mk.injEq] at ihe
            simp [upsertEntry, hfidx, hfi, succeed, ← ihe.1, ← ihe.2]
        | some i =>
            cases hg : xs[i]? with
            | none =>
                have ihe := ih
                simp only [upsertEntry, hfi, hg] at ihe
                exact absurd ihe (by simp [failNotFound])
            | some ex =>
                have ihe := ih
                simp only [upsertEntry, hfi, hg, succeed] at ihe
                rw [Result.Success.injEq, Prod.mk.injEq] at ihe
                simp only [upsertEntry, hfidx, hfi, Option.map_some',
                  List.getElem?_cons_succ, hg, List.set_cons_succ, succeed]
                rw [Result.Success.injEq, Prod.mk.injEq]
                exact ⟨by rw [ihe.1], ihe.2⟩

theorem findEntry_upsertList :
    ∀ (entries : List Entry) (term meaning : String),
      findEntry (upsertList entries term meaning) term =
        .Success (upsertListEntry entries term meaning) := by
  intro entries
  induction entries with
  | nil =>
      intro term meaning
      simp [upsertList, upsertListEntry, findEntry, findEntryIndex, createEntry,
        defaultScore, succeed]
  | cons x xs ih =>
      intro term meaning
      by_cases hx : x.term == term
      · simp [upsertList, upsertListEntry, hx, findEntry_cons]
      · simp only [upsertList, upsertListEntry]
        rw [if_neg (by simp_all), if_neg (by simp_all), findEntry_cons, if_neg hx]
        exact ih term meaning

theorem upsertListEntry_meanings :
    ∀ (entries : List Entry) (term meaning : String),
      (upsertListEntry entries term meaning).meanings =
        termMeanings entries term ++ [meaning] := by
  intro entries
  induction entries with
  | nil =>
      intro term meaning
      simp [upsertListEntry, termMeanings, findEntry, findEntryIndex, createEntry,
        defaultScore, failNotFound]
  | cons x xs ih =>
      intro term meaning
      by_cases hx : x.term == term
      · simp [upsertListEntry, hx, termMeanings, findEntry_cons, succeed]
      · simp only [upsertListEntry, termMeanings]
        rw [if_neg (by simp_all), findEntry_cons, if_neg hx]
        exact ih term meaning

theorem termMeanings_upsertList (entries : List Entry) (term meaning : String) :
    termMeanings (upsertList entries term meaning) term =
      termMeanings entries term ++ [meaning] := by
  rw [termMeanings, findEntry_upsertList]
  exact upsertListEntry_meanings entries term meaning

theorem countTerm_upsertList :
    ∀ (entries : List Entry) (term meaning : String),
      countTerm (upsertList entries term meaning) term =
        max (countTerm entries term) 1 := by
  intro entries
  induction entries with
  | nil =>
      intro term meaning
      simp [upsertList, countTerm, createEntry, defaultScore]
  | cons x xs ih =>
      intro term meaning
      by_cases hx : x.term == term
      · simp only [upsertList]
        rw [if_pos hx]
        simp only [countTerm, List.filter_cons, hx, if_true, List.length_cons]
        omega
      · simp only [upsertList]
        rw [if_neg (by simp_all)]
        simp only [countTerm, List.filter_cons]
        simp only [hx]
        simpa using ih term meaning

theorem countTerm_le_one_of_unique :
    ∀ (entries : List Entry) (term : String),
      uniqueTerms entries → countTerm entries term ≤ 1 := by
  intro entries
  induction entries with
  | nil => intro term _; simp [countTerm]
  | cons x xs ih =>
      intro term hu
      rcases List.pairwise_cons.mp hu with ⟨hx, hxs⟩
      by_cases hxt : x.term == term
      · have hterm : x.term = term := eq_of_beq hxt
        have hnil : xs.filter (fun e => e.term == term) = [] := by
          apply List.filter_eq_nil_iff.mpr
          intro e he
          have : x.term ≠ e.term := hx e he
          simp only [ne_eq]
          intro hc
          exact this (hterm.trans (eq_of_beq hc).symm)
        simp [countTerm, List.filter_cons, hxt, hnil]
      · simp only [countTerm, List.filter_cons, hxt]
        simpa [countTerm] using ih term hxs

theorem upsertSeq_cons (entries : List Entry) (term meaning : String)
    (rest : List String) :
    upsertSeq entries term (meaning :: rest) =
      upsertSeq (upsertList entries term meaning) term rest := by
  simp [upsertSeq, upsertEntry_eq]

theorem termMeanings_upsertSeq (term : String) :
    ∀ (ms : List String) (entries : List Entry),
      termMeanings (upsertSeq entries term ms) term =
        termMeanings entries term ++ ms := by
  intro ms
  induction ms with
  | nil => intro entries; simp [upsertSeq]
  | cons m rest ih =>
      intro entries
      rw [upsertSeq_cons, ih, termMeanings_upsertList]
      simp

theorem countTerm_upsertSeq_of_one (term : String) :
    ∀ (ms : List String) (entries : List Entry),
      countTerm entries term = 1 →
      countTerm (upsertSeq entries term ms) term = 1 := by
  intro ms
  induction ms with
  | nil => intro entries h; simpa [upsertSeq] using h
  | cons m rest ih =>
      intro entries h
      rw [upsertSeq_cons]
      exact ih (upsertList entries term m) (by rw [countTerm_upsertList, h]; simp)

/-! ### Helper lemmas: set / filter interaction with findEntry -/

theorem getElem_set_self :
    ∀ (l : List Entry) (i : Nat) (x : Entry), i < l.length → (l.set i x)[i]? = some x := by
  intro l
  induction l with
  | nil => intro i x h; simp at h
  | cons a l ih =>
      intro i x h
      cases i with
      | zero => simp
      | succ j =>
          simp only [List.set_cons_succ, List.getElem?_cons_succ]
          exact ih j x (by simpa using Nat.lt_of_succ_lt_succ h)

theorem findEntryIndex_set :
    ∀ (entries : List Entry) (term : String) (i : Nat) (x : Entry),
      findEntryIndex entries term = some i → x.term = term →
      findEntryIndex (entries.set i x) term = some i := by
  intro entries
  induction entries with
  | nil => intro term i x h _; simp [findEntryIndex] at h
  | cons a l ih =>
      intro term i x h hx
      by_cases ha : a.term == term
      · simp only [findEntryIndex, ha, if_pos rfl] at h
        cases h
        simp [findEntryIndex, hx]
      · simp only [findEntryIndex, ha] at h
        rw [if_neg (by simp_all)] at h
        rcases Option.map_eq_some'.mp h with ⟨j, hj, rfl⟩
        simp only [List.set_cons_succ, findEntryIndex, ha]
        rw [if_neg (by simp_all)]
        simp [ih term j x hj hx]

theorem findEntry_set_found (entries : List Entry) (term : String) (i : Nat)
    (e x : Entry) (hfi : findEntryIndex entries term = some i)
    (hg : entries[i]? = some e) (hx : x.term = term) :
    findEntry (entries.set i x) term = .Success x := by
  have hlt : i < entries.length := getElem?_some_lt entries i e hg
  simp [findEntry, findEntryIndex_set entries term i x hfi hx,
    getElem_set_self entries i x hlt, succeed]

theorem findEntry_filter_self (entries : List Entry) (term : String) :
    findEntry (entries.filter (fun e => e.term != term)) term =
      failNotFound "Entry not found" := by
  apply findEntry_of_index_none
  apply (findEntryIndex_none_iff _ term).mpr
  intro e he
  have := (List.mem_filter.mp he).2
  simpa using this

theorem length_filter_ne_lt :
    ∀ (l : List String) (m : String), m ∈ l →
      (l.filter (fun x => x != m)).length < l.length := by
  intro l
  induction l with
  | nil => intro m h; cases h
  | cons a l ih =>
      intro m h
      by_cases ha : (a != m) = true
      · have hm : m ∈ l := by
          rcases List.mem_cons.mp h with rfl | hm
          · exact absurd ha (by simp)
          · exact hm
        simp only [List.filter_cons, ha, if_true, List.length_cons]
        exact Nat.succ_lt_succ (ih m hm)
      · have ha' : (a != m) = false := by simpa using ha
        simp only [List.filter_cons, ha']
        calc (l.filter (fun x => x != m)).length
            ≤ l.length := List.length_filter_le _ _
          _ < (a :: l).length := by simp

theorem filter_ne_of_not_mem (l : List String) (m : String) (h : m ∉ l) :
    l.filter (fun x => x != m) = l := by
  apply List.filter_eq_self.mpr
  intro a ha
  simp only [bne_iff_ne, ne_eq]
  intro hc
  exact h (hc ▸ ha)

theorem not_mem_filter_ne (l : List String) (m : String) :
    m ∉ l.filter (fun x => x != m) := by
  intro h
  have := (List.mem_filter.mp h).2
  simp at this

/-! ### Helper lemmas: the three branches of removeEntry with a meaning -/

theorem removeEntry_not_mem (state : AppState) (term m : String) (e : Entry)
    (hfe : findEntry state.entries term = .Success e) (hm : m ∉ e.meanings) :
    removeEntry state term (some m) = failNotFound "Meaning not found" := by
  have hfil : e.meanings.filter (fun item => item != m) = e.meanings :=
    filter_ne_of_not_mem _ _ hm
  simp [removeEntry, hfe, hfil]

theorem removeEntry_all_gone (state : AppState) (term m : String) (e : Entry)
    (hfe : findEntry state.entries term = .Success e) (hm : m ∈ e.meanings)
    (hall : e.meanings.filter (fun item => item != m) = []) :
    removeEntry state term (some m) =
      succeed ({ state with entries := state.entries.filter (fun x => x.term != term) },
        state.dictionary.name) ∧
    findEntry (state.entries.filter (fun x => x.term != term)) term =
      failNotFound "Entry not found" := by
  have hlt := length_filter_ne_lt e.meanings m hm
  have hc1 : ((e.meanings.filter (fun item => item != m)).length ==
      e.meanings.length) = false := by
    apply beq_eq_false_iff_ne.mpr
    omega
  have hc2 : ((e.meanings.filter (fun item => item != m)).length == 0) = true := by
    simp [hall]
  rcases findEntry_success_inv state.entries term e hfe with ⟨i, hfi, -, -⟩
  refine ⟨?_, findEntry_filter_self state.entries term⟩
  simp [removeEntry, hfe, hc1, hc2, deleteEntry, hfi, succeed]

theorem removeEntry_keep (state : AppState) (term m : String) (e : Entry)
    (hfe : findEntry state.entries term = .Success e) (hm : m ∈ e.meanings)
    (hne : e.meanings.filter (fun item => item != m) ≠ []) :
    ∃ i, findEntryIndex state.entries term = some i ∧
      removeEntry state term (some m) =
        succeed ({ state with entries := state.entries.set i ({ e with meanings := e.meanings.filter (fun item => item != m) }) }, state.dictionary.name) ∧
      findEntry (state.entries.set i ({ e with meanings := e.meanings.filter (fun item => item != m) })) term =
        .Success ({ e with meanings := e.meanings.filter (fun item => item != m) }) := by
  have hlt := length_filter_ne_lt e.meanings m hm
  have hc1 : ((e.meanings.filter (fun item => item != m)).length ==
      e.meanings.length) = false := by
    apply beq_eq_false_iff_ne.mpr
    omega
  have hc2 : ((e.meanings.filter (fun item => item != m)).length == 0) = false := by
    apply beq_eq_false_iff_ne.mpr
    intro hc
    exact hne (List.length_eq_zero.mp hc)
  rcases findEntry_success_inv state.entries term e hfe with ⟨i, hfi, hg, hterm⟩
  have hxt : ({ e with meanings := e.meanings.filter (fun item => item != m) } : Entry).term
      = term := hterm
  refine ⟨i, hfi, ?_, findEntry_set_found state.entries term i e _ hfi hg hxt⟩
  have hfi' : findEntryIndex state.entries
      ({ e with meanings := e.meanings.filter (fun item => item != m) } : Entry).term
      = some i := by rw [hxt]; exact hfi
  simp [removeEntry, hfe, hc1, hc2, replaceEntry, hfi', succeed]

/-! ## Claim C1: term uniqueness under upsert -/

/-- C1: for every initial entry collection satisfying the one-entry-per-term
invariant and every non-empty sequence of `upsertEntry` calls with the same
term, the resulting collection contains exactly one entry with that term, and
that entry's meanings are the meanings the term already had followed by the
supplied meanings in call order. -/
theorem claim_C1_upsert_uniqueness (entries : List Entry) (term : String)
    (ms : List String) (hu : uniqueTerms entries) (hms : ms ≠ []) :
    countTerm (upsertSeq entries term ms) term = 1 ∧
    termMeanings (upsertSeq entries term ms) term = termMeanings entries term ++ ms ∧
    ∃ e, findEntry (upsertSeq entries term ms) term = .Success e ∧
      e.meanings = termMeanings entries term ++ ms := by
  have hmean := termMeanings_upsertSeq term ms entries
  have hcount : countTerm (upsertSeq entries term ms) term = 1 := by
    cases ms with
    | nil => exact absurd rfl hms
    | cons m rest =>
        rw [upsertSeq_cons]
        apply countTerm_upsertSeq_of_one
        rw [countTerm_upsertList]
        have := countTerm_le_one_of_unique entries term hu
        omega
  refine ⟨hcount, hmean, ?_⟩
  cases hfe : findEntry (upsertSeq entries term ms) term with
  | Success e =>
      refine ⟨e, rfl, ?_⟩
      simp only [termMeanings, hfe] at hmean
      exact hmean
  | Failure err =>
      simp only [termMeanings, hfe] at hmean
      rcases List.append_eq_nil.mp hmean.symm with ⟨-, hnil⟩
      exact absurd hnil hms

/-- Witness for C1 at a concrete two-entry collection. -/
theorem claim_C1_upsert_uniqueness_witness :
    countTerm (upsertSeq [Entry.mk "w" ["x"] none 0, Entry.mk "v" ["y"] none 2]
        "w" ["a", "b"]) "w" = 1 ∧
    termMeanings (upsertSeq [Entry.mk "w" ["x"] none 0, Entry.mk "v" ["y"] none 2]
        "w" ["a", "b"]) "w" =
      termMeanings [Entry.mk "w" ["x"] none 0, Entry.mk "v" ["y"] none 2] "w" ++ ["a", "b"] ∧
    ∃ e, findEntry (upsertSeq [Entry.mk "w" ["x"] none 0, Entry.mk "v" ["y"] none 2]
        "w" ["a", "b"]) "w" = .Success e ∧
      e.meanings =
        termMeanings [Entry.mk "w" ["x"] none 0, Entry.mk "v" ["y"] none 2] "w" ++ ["a", "b"] :=
  claim_C1_upsert_uniqueness
    [Entry.mk "w" ["x"] none 0, Entry.mk "v" ["y"] none 2] "w" ["a", "b"]
    (by decide) (by decide)

/-! ## Claim C3: upsertEntry is total and appends without dedup -/

/-- C3: `upsertEntry` never returns a Failure; when no entry has the term it
appends a fresh entry with meanings `[meaning]` and the default score; when an
entry with the term exists, the result stores that entry with the meaning
appended to its meanings (no deduplication). -/
theorem claim_C3_upsert_total (entries : List Entry) (term meaning : String) :
    (∃ p, upsertEntry entries term meaning = .Success p) ∧
    (findEntryIndex entries term = none →
       upsertEntry entries term meaning =
         .Success (entries ++ [createEntry term [meaning] none none],
                   createEntry term [meaning] none none) ∧
       (createEntry term [meaning] none none).meanings = [meaning] ∧
       (createEntry term [meaning] none none).score = defaultScore) ∧
    (∀ e, findEntry entries term = .Success e →
       ∃ p, upsertEntry entries term meaning = .Success p ∧
         p.2.meanings = e.meanings ++ [meaning] ∧
         findEntry p.1 term = .Success p.2) := by
  refine ⟨⟨_, upsertEntry_eq entries term meaning⟩, ?_, ?_⟩
  · intro hnone
    exact ⟨by simp [upsertEntry, hnone, succeed], rfl, rfl⟩
  · intro e he
    refine ⟨(upsertList entries term meaning, upsertListEntry entries term meaning),
      upsertEntry_eq entries term meaning, ?_,
      findEntry_upsertList entries term meaning⟩
    rw [upsertListEntry_meanings entries term meaning]
    simp [termMeanings, he]

/-- Witness for C3 at a concrete one-entry collection with a duplicate
meaning being appended. -/
theorem claim_C3_upsert_total_witness :
    ∃ p, upsertEntry [Entry.mk "w" ["x"] none 0] "w" "x" = .Success p ∧
      p.2.meanings = (Entry.mk "w" ["x"] none 0).meanings ++ ["x"] ∧
      findEntry p.1 "w" = .Success p.2 :=
  (claim_C3_upsert_total [Entry.mk "w" ["x"] none 0] "w" "x").2.2
    (Entry.mk "w" ["x"] none 0) (by decide)

/-! ## Claim C9: addEntryMeanings with an empty meanings list -/

/-- C9 counterexample: the claim states the returned fresh entry is never
contained in the returned state's entries, for every `AppState`; but for a
state already holding the degenerate entry `Entry.mk "w" [] none 0`, the
entry returned by `addEntryMeanings state "w" []` is contained in the
returned state's entries. -/
theorem claim_C9_counterexample :
    addEntryMeanings
        (AppState.mk (Dictionary.mk "d" (Language.mk "en" "ja"))
          [Entry.mk "w" [] none 0]) "w" [] =
      .Success (AppState.mk (Dictionary.mk "d" (Language.mk "en" "ja"))
          [Entry.mk "w" [] none 0],
        Entry.mk "w" [] none 0, "d") ∧
    Entry.mk "w" [] none 0 ∈ [Entry.mk "w" [] none 0] := by
  exact ⟨rfl, by decide⟩

/-- C9 (amended): for every `AppState` in which every stored entry has a
non-empty meanings list (the documented invariant) and every term, calling
`addEntryMeanings` with an empty meanings array returns Success with the
entries unchanged, and the returned entry is a freshly built entry with an
empty meanings list and the default score that is not contained in the
returned state's entries. -/
theorem claim_C9_empty_meanings (state : AppState) (term : String)
    (hinv : ∀ e ∈ state.entries, e.meanings ≠ []) :
    addEntryMeanings state term [] =
      .Success (state, createEntry term [] none none, state.dictionary.name) ∧
    (createEntry term [] none none).meanings = [] ∧
    (createEntry term [] none none).score = defaultScore ∧
    createEntry term [] none none ∉ state.entries := by
  refine ⟨rfl, rfl, rfl, ?_⟩
  intro hmem
  exact hinv _ hmem rfl

/-- Witness for C9 (amended) at a concrete state. -/
theorem claim_C9_empty_meanings_witness :
    addEntryMeanings
        (AppState.mk (Dictionary.mk "d" (Language.mk "en" "ja"))
          [Entry.mk "v" ["y"] none 1]) "w" [] =
      .Success (AppState.mk (Dictionary.mk "d" (Language.mk "en" "ja"))
          [Entry.mk "v" ["y"] none 1],
        createEntry "w" [] none none,
        "d") ∧
    (createEntry "w" [] none none).meanings = [] ∧
    (createEntry "w" [] none none).score = defaultScore ∧
    createEntry "w" [] none none ∉
      (AppState.mk (Dictionary.mk "d" (Language.mk "en" "ja"))
        [Entry.mk "v" ["y"] none 1]).entries :=
  claim_C9_empty_meanings
    (AppState.mk (Dictionary.mk "d" (Language.mk "en" "ja"))
      [Entry.mk "v" ["y"] none 1]) "w" (by decide)

/-- The fields of an entry built by `createEntry` with an explicit score. -/
theorem createEntry_fields (term : String) (meanings : List String)
    (examples : Option (List String)) (s : Nat) :
    (createEntry term meanings examples (some s)).term = term ∧
    (createEntry term meanings examples (some s)).meanings = meanings ∧
    (createEntry term meanings examples (some s)).examples = examples ∧
    (createEntry term meanings examples (some s)).score = s := by
  cases examples <;> simp [createEntry]

/-! ## Claim C2: removeEntry with a meaning argument -/

/-- C2: for a state holding an entry for the term: if the meaning is present
and other meanings remain after removal, the entry survives with the meaning
removed; if removal would empty the meanings list, the whole entry is deleted
and a subsequent findEntry fails not-found; if the meaning is absent,
removeEntry fails not-found; and no resulting state contains an entry with an
empty meanings list (given all input entries had non-empty meanings). -/
theorem claim_C2_remove_meaning (state : AppState) (term m : String) (e : Entry)
    (hfe : findEntry state.entries term = .Success e) :
    (m ∈ e.meanings → e.meanings.filter (fun item => item != m) ≠ [] →
       ∃ st, removeEntry state term (some m) = .Success (st, state.dictionary.name) ∧
         findEntry st.entries term =
           .Success ({ e with meanings := e.meanings.filter (fun item => item != m) })) ∧
    (m ∈ e.meanings → e.meanings.filter (fun item => item != m) = [] →
       ∃ st, removeEntry state term (some m) = .Success (st, state.dictionary.name) ∧
         findEntry st.entries term = .Failure (LexicaError.mk .notFound "Entry not found")) ∧
    (m ∉ e.meanings →
       removeEntry state term (some m) =
         .Failure (LexicaError.mk .notFound "Meaning not found")) ∧
    (∀ st dn, (∀ x ∈ state.entries, x.meanings ≠ []) →
       removeEntry state term (some m) = .Success (st, dn) →
       ∀ x ∈ st.entries, x.meanings ≠ []) := by
  refine ⟨?_, ?_, ?_, ?_⟩
  · intro hm hne
    rcases removeEntry_keep state term m e hfe hm hne with ⟨i, -, heq, hfind⟩
    exact ⟨_, heq, hfind⟩
  · intro hm hall
    rcases removeEntry_all_gone state term m e hfe hm hall with ⟨heq, hfind⟩
    exact ⟨_, heq, hfind⟩
  · intro hm
    exact removeEntry_not_mem state term m e hfe hm
  · intro st dn hinv heq
    by_cases hm : m ∈ e.meanings
    · by_cases hall : e.meanings.filter (fun item => item != m) = []
      · rcases removeEntry_all_gone state term m e hfe hm hall with ⟨heq2, -⟩
        rw [heq2] at heq
        simp only [succeed, Result.Success.injEq, Prod.mk.injEq] at heq
        intro x hx
        have hx2 : x ∈ state.entries.filter (fun y => y.term != term) := by
          rw [← heq.1] at hx
          exact hx
        exact hinv x (List.mem_filter.mp hx2).1
      · rcases removeEntry_keep state term m e hfe hm hall with ⟨i, -, heq2, -⟩
        rw [heq2] at heq
        simp only [succeed, Result.Success.injEq, Prod.mk.injEq] at heq
        intro x hx
        have hx2 : x ∈ state.entries.set i
            ({ e with meanings := e.meanings.filter (fun item => item != m) }) := by
          rw [← heq.1] at hx
          exact hx
        rcases List.mem_or_eq_of_mem_set hx2 with hold | hnew
        · exact hinv x hold
        · rw [hnew]
          exact hall
    · rw [removeEntry_not_mem state term m e hfe hm] at heq
      exact absurd heq (by simp [failNotFound])

/-- Witness for C2 at a concrete one-entry state, removing one of two
meanings. -/
theorem claim_C2_remove_meaning_witness :
    ∃ st, removeEntry (AppState.mk (Dictionary.mk "d" (Language.mk "en" "ja"))
        [Entry.mk "w" ["x", "y"] none 0]) "w" (some "x") = .Success (st, "d") ∧
      findEntry st.entries "w" =
        .Success ({ Entry.mk "w" ["x", "y"] none 0 with
          meanings := (["x", "y"] : List String).filter (fun item => item != "x") }) :=
  (claim_C2_remove_meaning
      (AppState.mk (Dictionary.mk "d" (Language.mk "en" "ja"))
        [Entry.mk "w" ["x", "y"] none 0]) "w" "x" (Entry.mk "w" ["x", "y"] none 0)
      (by decide)).1 (by decide) (by decide)

/-! ## Claim C10: one removeEntry call removes duplicate meanings wholesale -/

/-- C10: when the entry stores the meaning more than once, a single
removeEntry call removes every occurrence; when those occurrences were the
entire meanings list, the entry itself is deleted. -/
theorem claim_C10_remove_duplicates (state : AppState) (term m : String) (e : Entry)
    (hfe : findEntry state.entries term = .Success e)
    (hdup : 2 ≤ e.meanings.count m) :
    (e.meanings.filter (fun item => item != m) ≠ [] →
       ∃ st, removeEntry state term (some m) = .Success (st, state.dictionary.name) ∧
         ∃ e2, findEntry st.entries term = .Success e2 ∧
           e2.meanings = e.meanings.filter (fun item => item != m) ∧ m ∉ e2.meanings) ∧
    (e.meanings.filter (fun item => item != m) = [] →
       ∃ st, removeEntry state term (some m) = .Success (st, state.dictionary.name) ∧
         findEntry st.entries term = .Failure (LexicaError.mk .notFound "Entry not found")) := by
  have hm : m ∈ e.meanings := List.count_pos_iff.mp (by omega)
  refine ⟨?_, ?_⟩
  · intro hne
    rcases removeEntry_keep state term m e hfe hm hne with ⟨i, -, heq, hfind⟩
    exact ⟨_, heq, _, hfind, rfl, not_mem_filter_ne e.meanings m⟩
  · intro hall
    rcases removeEntry_all_gone state term m e hfe hm hall with ⟨heq, hfind⟩
    exact ⟨_, heq, hfind⟩

/-- Witness for C10: the meaning "x" occurs twice and both occurrences are
removed by one call while "y" survives. -/
theorem claim_C10_remove_duplicates_witness :
    ∃ st, removeEntry (AppState.mk (Dictionary.mk "d" (Language.mk "en" "ja"))
        [Entry.mk "w" ["x", "y", "x"] none 0]) "w" (some "x") = .Success (st, "d") ∧
      ∃ e2, findEntry st.entries "w" = .Success e2 ∧
        e2.meanings = (["x", "y", "x"] : List String).filter (fun item => item != "x") ∧
        "x" ∉ e2.meanings :=
  (claim_C10_remove_duplicates
      (AppState.mk (Dictionary.mk "d" (Language.mk "en" "ja"))
        [Entry.mk "w" ["x", "y", "x"] none 0]) "w" "x" (Entry.mk "w" ["x", "y", "x"] none 0)
      (by decide) (by decide)).1 (by decide)

/-! ## Claim C8: replaceEntryInAppState preserves the score -/

/-- C8: the replace-entry command fails not-found when no entry has the
term; otherwise the entry for the term in the resulting state carries the
given meanings and examples but keeps the pre-existing entry's score. -/
theorem claim_C8_replace_preserves_score (state : AppState) (term : String)
    (meanings : List String) (examples : Option (List String)) :
    (findEntryIndex state.entries term = none →
       replaceEntryInAppState state term meanings examples =
         .Failure (LexicaError.mk .notFound "Entry not found")) ∧
    (∀ e, findEntry state.entries term = .Success e →
       ∃ st, replaceEntryInAppState state term meanings examples =
           .Success (st, createEntry term meanings examples (some e.score),
             state.dictionary.name) ∧
         findEntry st.entries term =
           .Success (createEntry term meanings examples (some e.score)) ∧
         (createEntry term meanings examples (some e.score)).score = e.score ∧
         (createEntry term meanings examples (some e.score)).meanings = meanings ∧
         (createEntry term meanings examples (some e.score)).examples = examples) := by
  refine ⟨?_, ?_⟩
  · intro hnone
    simp [replaceEntryInAppState, findEntry_of_index_none state.entries term hnone,
      failNotFound]
  · intro e he
    rcases findEntry_success_inv state.entries term e he with ⟨i, hfi, hg, -⟩
    rcases createEntry_fields term meanings examples e.score with ⟨hct, hcm, hce, hcs⟩
    have hfi2 : findEntryIndex state.entries
        (createEntry term meanings examples (some e.score)).term = some i := by
      rw [hct]; exact hfi
    have hrep : replaceEntry state.entries (createEntry term meanings examples (some e.score)) =
        succeed (state.entries.set i (createEntry term meanings examples (some e.score)),
          createEntry term meanings examples (some e.score)) := by
      simp [replaceEntry, hfi2, succeed]
    refine ⟨{ state with entries := state.entries.set i (createEntry term meanings examples (some e.score)) }, ?_, findEntry_set_found state.entries term i e _ hfi hg hct, hcs, hcm, hce⟩
    simp [replaceEntryInAppState, he, hrep, succeed]

/-- Witness for C8: replacing the meanings of an entry with score 5 keeps
score 5. -/
theorem claim_C8_replace_preserves_score_witness :
    ∃ st, replaceEntryInAppState (AppState.mk (Dictionary.mk "d" (Language.mk "en" "ja"))
        [Entry.mk "w" ["x"] none 5]) "w" ["z"] none =
        .Success (st, createEntry "w" ["z"] none (some (Entry.mk "w" ["x"] none 5).score), "d") ∧
      findEntry st.entries "w" =
        .Success (createEntry "w" ["z"] none (some (Entry.mk "w" ["x"] none 5).score)) ∧
      (createEntry "w" ["z"] none (some (Entry.mk "w" ["x"] none 5).score)).score =
        (Entry.mk "w" ["x"] none 5).score ∧
      (createEntry "w" ["z"] none (some (Entry.mk "w" ["x"] none 5).score)).meanings = ["z"] ∧
      (createEntry "w" ["z"] none (some (Entry.mk "w" ["x"] none 5).score)).examples = none :=
  (claim_C8_replace_preserves_score
      (AppState.mk (Dictionary.mk "d" (Language.mk "en" "ja"))
        [Entry.mk "w" ["x"] none 5]) "w" ["z"] none).2
    (Entry.mk "w" ["x"] none 5) (by decide)

/-! ## Claim C7: generateExamples overwrite and atomicity -/

/-- C7: with an entry present, a successful generator run overwrites the
entry's examples wholesale with the generator output (all other fields
unchanged); a generator failure propagates verbatim with no state change
(the function is pure, so the caller keeps the unmodified input state); a
missing entry fails not-found for every generator. -/
theorem claim_C7_generate_examples (state : AppState) (term m : String)
    (generator : GenInput → Result (List String)) (count : Nat) :
    (findEntryIndex state.entries term = none →
       generateExamples state term m generator count =
         .Failure (LexicaError.mk .notFound "Entry not found")) ∧
    (∀ e err, findEntry state.entries term = .Success e →
       generator (GenInput.mk state.dictionary.name state.dictionary.language term m count) =
         .Failure err →
       generateExamples state term m generator count = .Failure err) ∧
    (∀ e xs, findEntry state.entries term = .Success e →
       generator (GenInput.mk state.dictionary.name state.dictionary.language term m count) =
         .Success xs →
       ∃ st, generateExamples state term m generator count =
           .Success (st, { e with examples := some xs }, state.dictionary.name) ∧
         findEntry st.entries term = .Success ({ e with examples := some xs })) := by
  refine ⟨?_, ?_, ?_⟩
  · intro hnone
    simp [generateExamples, findEntry_of_index_none state.entries term hnone, failNotFound]
  · intro e err he hgen
    simp [generateExamples, he, hgen]
  · intro e xs he hgen
    rcases findEntry_success_inv state.entries term e he with ⟨i, hfi, hg, hterm⟩
    have hxt : ({ e with examples := some xs } : Entry).term = term := hterm
    have hfi2 : findEntryIndex state.entries
        ({ e with examples := some xs } : Entry).term = some i := by
      rw [hxt]; exact hfi
    have hrep : replaceEntry state.entries ({ e with examples := some xs }) =
        succeed (state.entries.set i ({ e with examples := some xs }),
          ({ e with examples := some xs } : Entry)) := by
      simp [replaceEntry, hfi2, succeed]
    refine ⟨{ state with entries := state.entries.set i ({ e with examples := some xs }) }, ?_, findEntry_set_found state.entries term i e _ hfi hg hxt⟩
    simp [generateExamples, he, hgen, overwriteExamples, hrep, succeed]

/-- Witness for C7: a stubbed generator returning two sentences overwrites
the previous examples. -/
theorem claim_C7_generate_examples_witness :
    ∃ st, generateExamples (AppState.mk (Dictionary.mk "d" (Language.mk "en" "ja"))
        [Entry.mk "w" ["x"] (some ["old"]) 1]) "w" "x"
        (fun _ => .Success ["s1", "s2"]) 2 =
        .Success (st, { Entry.mk "w" ["x"] (some ["old"]) 1 with examples := some ["s1", "s2"] }, "d") ∧
      findEntry st.entries "w" =
        .Success ({ Entry.mk "w" ["x"] (some ["old"]) 1 with examples := some ["s1", "s2"] }) :=
  (claim_C7_generate_examples
      (AppState.mk (Dictionary.mk "d" (Language.mk "en" "ja"))
        [Entry.mk "w" ["x"] (some ["old"]) 1]) "w" "x"
      (fun _ => .Success ["s1", "s2"]) 2).2.2
    (Entry.mk "w" ["x"] (some ["old"]) 1) ["s1", "s2"] (by decide) rfl

/-! ### Helper lemmas: weights and the sampling walk -/

theorem foldl_add_entryWeight :
    ∀ (l : List Entry) (a : ℚ),
      l.foldl (fun sum entry => sum + entryWeight entry) a = a + (l.map entryWeight).sum := by
  intro l
  induction l with
  | nil => intro a; simp
  | cons e rest ih => intro a; simp [List.foldl_cons, ih, add_assoc]

theorem totalWeight_eq_sum (l : List Entry) :
    totalWeight l = (l.map entryWeight).sum := by
  simpa [totalWeight] using foldl_add_entryWeight l 0

theorem entryWeight_pos (e : Entry) : 0 < entryWeight e := by
  unfold entryWeight scoreToNumber
  positivity

theorem entryWeight_le_one (e : Entry) : entryWeight e ≤ 1 := by
  unfold entryWeight scoreToNumber
  rw [div_le_one (by positivity)]
  have h : (0:ℚ) ≤ (e.score : ℚ) := by positivity
  linarith

theorem sum_entryWeights_nonneg (l : List Entry) : 0 ≤ (l.map entryWeight).sum := by
  apply List.sum_nonneg
  intro x hx
  rcases List.mem_map.mp hx with ⟨e, -, rfl⟩
  exact (entryWeight_pos e).le

theorem totalWeight_pos (l : List Entry) (h : l ≠ []) : 0 < totalWeight l := by
  cases l with
  | nil => exact absurd rfl h
  | cons e rest =>
      rw [totalWeight_eq_sum]
      simp only [List.map_cons, List.sum_cons]
      have h1 := entryWeight_pos e
      have h2 := sum_entryWeights_nonneg rest
      linarith

theorem cumWeight_cons_succ (e : Entry) (rest : List Entry) (n : Nat) :
    cumWeight (e :: rest) (n + 1) = entryWeight e + cumWeight rest n := by
  simp [cumWeight]

theorem chooseWalk_spec :
    ∀ (l : List Entry) (pick cursor : ℚ), l ≠ [] →
      pick ≤ cursor + (l.map entryWeight).sum →
      ∃ j, ∃ hj : j < l.length,
        chooseWalk pick l cursor = some (l.get ⟨j, hj⟩) ∧
        pick ≤ cursor + cumWeight l (j + 1) ∧
        ∀ k < j, cursor + cumWeight l (k + 1) < pick := by
  intro l
  induction l with
  | nil => intro pick cursor h _; exact absurd rfl h
  | cons e rest ih =>
      intro pick cursor _ hle
      by_cases hbr : pick ≤ cursor + entryWeight e
      · refine ⟨0, Nat.succ_pos _, ?_, ?_, ?_⟩
        · simp [chooseWalk, hbr]
        · simpa [cumWeight] using hbr
        · intro k hk; exact absurd hk (Nat.not_lt_zero k)
      · push_neg at hbr
        have hrest : rest ≠ [] := by
          intro h0
          rw [h0] at hle
          simp only [List.map_cons, List.map_nil, List.sum_cons, List.sum_nil,
            add_zero] at hle
          exact absurd hle (not_le.mpr hbr)
        have hle2 : pick ≤ (cursor + entryWeight e) + (rest.map entryWeight).sum := by
          simp only [List.map_cons, List.sum_cons] at hle
          linarith
        rcases ih pick (cursor + entryWeight e) hrest hle2 with ⟨j, hj, hwalk, hup, hlo⟩
        refine ⟨j + 1, Nat.succ_lt_succ hj, ?_, ?_, ?_⟩
        · have hite : chooseWalk pick (e :: rest) cursor =
              chooseWalk pick rest (cursor + entryWeight e) := by
            simp [chooseWalk, hbr.not_le]
          rw [hite, hwalk]
          rfl
        · rw [cumWeight_cons_succ]
          linarith [hup]
        · intro k hk
          cases k with
          | zero => simpa [cumWeight] using hbr
          | succ n =>
              have hn : n < j := Nat.lt_of_succ_lt_succ hk
              have hlon := hlo n hn
              rw [cumWeight_cons_succ]
              linarith

theorem chooseWalk_mem :
    ∀ (l : List Entry) (pick cursor : ℚ) (e : Entry),
      chooseWalk pick l cursor = some e → e ∈ l := by
  intro l
  induction l with
  | nil => intro pick cursor e h; simp [chooseWalk] at h
  | cons x rest ih =>
      intro pick cursor e h
      by_cases hc : pick ≤ cursor + entryWeight x
      · simp [chooseWalk, hc] at h
        rw [← h]
        exact List.mem_cons_self x rest
      · simp [chooseWalk, hc] at h
        exact List.mem_cons_of_mem x (ih _ _ _ h)

theorem chooseWeightedEntry_mem (l : List Entry) (r : ℚ) (e : Entry)
    (h : chooseWeightedEntry l r = some e) : e ∈ l := by
  cases l with
  | nil =>
      have hnil : chooseWeightedEntry ([] : List Entry) r = none := rfl
      rw [hnil] at h
      cases h
  | cons x rest =>
      have hstep : chooseWeightedEntry (x :: rest) r =
          match chooseWalk (r * totalWeight (x :: rest)) (x :: rest) 0 with
          | some y => some y
          | none => some x := rfl
      rw [hstep] at h
      cases hw : chooseWalk (r * totalWeight (x :: rest)) (x :: rest) 0 with
      | some y =>
          simp only [hw] at h
          rw [← Option.some.inj h]
          exact chooseWalk_mem _ _ _ _ hw
      | none =>
          simp only [hw] at h
          rw [← Option.some.inj h]
          exact List.mem_cons_self x rest

theorem chooseWeightedEntry_of_walk (l : List Entry) (r : ℚ) (e : Entry)
    (hne : l ≠ []) (hw : chooseWalk (r * totalWeight l) l 0 = some e) :
    chooseWeightedEntry l r = some e := by
  cases l with
  | nil => exact absurd rfl hne
  | cons x rest =>
      have hstep : chooseWeightedEntry (x :: rest) r =
          match chooseWalk (r * totalWeight (x :: rest)) (x :: rest) 0 with
          | some y => some y
          | none => some x := rfl
      rw [hstep, hw]

/-! ## Claim C4: the weighted pick algorithm -/

/-- C4: every entry weight `1/(score+1)` lies in `(0, 1]`; the total is the
sum of eligible weights; and for a non-empty list and `r ∈ [0,1)` the chosen
entry is the first one whose running cumulative weight reaches
`pick = r * total` (inverse-CDF sampling, first-reach tie-breaking). -/
theorem claim_C4_weighted_pick (entries : List Entry) (r : ℚ)
    (hne : entries ≠ []) (h0 : 0 ≤ r) (h1 : r < 1) :
    (∀ e, 0 < entryWeight e ∧ entryWeight e ≤ 1) ∧
    totalWeight entries = (entries.map entryWeight).sum ∧
    ∃ j, ∃ hj : j < entries.length,
      chooseWeightedEntry entries r = some (entries.get ⟨j, hj⟩) ∧
      r * totalWeight entries ≤ cumWeight entries (j + 1) ∧
      ∀ k < j, cumWeight entries (k + 1) < r * totalWeight entries := by
  refine ⟨fun e => ⟨entryWeight_pos e, entryWeight_le_one e⟩, totalWeight_eq_sum entries, ?_⟩
  have htot := totalWeight_pos entries hne
  have hpick : r * totalWeight entries ≤ 0 + (entries.map entryWeight).sum := by
    rw [zero_add, ← totalWeight_eq_sum]
    nlinarith [h0, h1, htot]
  rcases chooseWalk_spec entries (r * totalWeight entries) 0 hne hpick with
    ⟨j, hj, hwalk, hup, hlo⟩
  exact ⟨j, hj, chooseWeightedEntry_of_walk entries r _ hne hwalk,
    by simpa using hup, fun k hk => by simpa using hlo k hk⟩

/-- Witness for C4 at a concrete two-entry list with scores 0 and 1 and
`r = 0`. -/
theorem claim_C4_weighted_pick_witness :
    (∀ e, 0 < entryWeight e ∧ entryWeight e ≤ 1) ∧
    totalWeight [Entry.mk "a" ["x"] none 0, Entry.mk "b" ["y"] none 1] =
      ([Entry.mk "a" ["x"] none 0, Entry.mk "b" ["y"] none 1].map entryWeight).sum ∧
    ∃ j, ∃ hj : j < ([Entry.mk "a" ["x"] none 0, Entry.mk "b" ["y"] none 1] : List Entry).length,
      chooseWeightedEntry [Entry.mk "a" ["x"] none 0, Entry.mk "b" ["y"] none 1] 0 =
        some (([Entry.mk "a" ["x"] none 0, Entry.mk "b" ["y"] none 1] : List Entry).get ⟨j, hj⟩) ∧
      0 * totalWeight [Entry.mk "a" ["x"] none 0, Entry.mk "b" ["y"] none 1] ≤
        cumWeight [Entry.mk "a" ["x"] none 0, Entry.mk "b" ["y"] none 1] (j + 1) ∧
      ∀ k < j, cumWeight [Entry.mk "a" ["x"] none 0, Entry.mk "b" ["y"] none 1] (k + 1) <
        0 * totalWeight [Entry.mk "a" ["x"] none 0, Entry.mk "b" ["y"] none 1] :=
  claim_C4_weighted_pick [Entry.mk "a" ["x"] none 0, Entry.mk "b" ["y"] none 1] 0
    (by simp) (le_refl 0) zero_lt_one

/-! ## Claim C5: the no-repeat invariant in meanings mode -/

/-- C5: whenever `selectMeaningTestEntry` returns a non-null selection, the
selected entry's term is not in `usedTerms` — so a term added to `usedTerms`
after each selection is never selected twice in a session, for any rng. -/
theorem claim_C5_no_repeat (state : AppState) (usedTerms : List String) (r : ℚ) :
    ∀ sel, selectMeaningTestEntry state usedTerms r = .Success (some sel) →
      sel.entry.term ∉ usedTerms := by
  intro sel h
  have hstep : selectMeaningTestEntry state usedTerms r =
      match chooseWeightedEntry
          (state.entries.filter (fun e => !(usedTerms.contains e.term))) r with
      | none => succeed none
      | some chosen => succeed (some (TestSelection.mk chosen none)) := rfl
  rw [hstep] at h
  cases hw : chooseWeightedEntry
      (state.entries.filter (fun e => !(usedTerms.contains e.term))) r with
  | none =>
      rw [hw] at h
      simp [succeed] at h
  | some chosen =>
      simp only [hw, succeed, Result.Success.injEq, Option.some.injEq] at h
      have hmem := chooseWeightedEntry_mem _ r chosen hw
      have helig := (List.mem_filter.mp hmem).2
      intro habs
      have hterm : chosen.term ∈ usedTerms := by
        rw [← h] at habs
        exact habs
      have hcontra : usedTerms.contains chosen.term = true := by simpa using hterm
      rw [hcontra] at helig
      cases helig

/-- Witness for C5: with one entry of term "a" and usedTerms = ["b"], the
selection succeeds and its term "a" is not in usedTerms. -/
theorem claim_C5_no_repeat_witness :
    (TestSelection.mk (Entry.mk "a" ["x"] none 0) none).entry.term ∉ ["b"] :=
  claim_C5_no_repeat
    (AppState.mk (Dictionary.mk "d" (Language.mk "en" "ja")) [Entry.mk "a" ["x"] none 0])
    ["b"] 0 (TestSelection.mk (Entry.mk "a" ["x"] none 0) none)
    (by
      have hfil : ((AppState.mk (Dictionary.mk "d" (Language.mk "en" "ja"))
          [Entry.mk "a" ["x"] none 0]).entries.filter
            (fun e => !((["b"] : List String).contains e.term))) =
          [Entry.mk "a" ["x"] none 0] := by
        simp [List.contains]
      have hcw : chooseWeightedEntry [Entry.mk "a" ["x"] none 0] 0 =
          some (Entry.mk "a" ["x"] none 0) := by
        have hwalk : chooseWalk (0 * totalWeight [Entry.mk "a" ["x"] none 0])
            [Entry.mk "a" ["x"] none 0] 0 = some (Entry.mk "a" ["x"] none 0) := by
          simp only [chooseWalk]
          norm_num [entryWeight, totalWeight, scoreToNumber]
        have hstep : chooseWeightedEntry [Entry.mk "a" ["x"] none 0] 0 =
            match chooseWalk (0 * totalWeight [Entry.mk "a" ["x"] none 0])
                [Entry.mk "a" ["x"] none 0] 0 with
            | some y => some y
            | none => some (Entry.mk "a" ["x"] none 0) := rfl
        rw [hstep, hwalk]
      have hsel : selectMeaningTestEntry
          (AppState.mk (Dictionary.mk "d" (Language.mk "en" "ja"))
            [Entry.mk "a" ["x"] none 0]) ["b"] 0 =
          match chooseWeightedEntry
              ((AppState.mk (Dictionary.mk "d" (Language.mk "en" "ja"))
                [Entry.mk "a" ["x"] none 0]).entries.filter
                  (fun e => !((["b"] : List String).contains e.term))) 0 with
          | none => succeed none
          | some chosen => succeed (some (TestSelection.mk chosen none)) := rfl
      rw [hsel, hfil, hcw]
      rfl)

/-! ## Claim C6: exhaustion yields Success none, not a failure -/

/-- C6: if usedTerms covers the term of every stored entry, the eligible
subset is empty and `selectMeaningTestEntry` returns `Success none` rather
than any tagged error. -/
theorem claim_C6_exhaustion (state : AppState) (usedTerms : List String) (r : ℚ)
    (hall : ∀ e ∈ state.entries, e.term ∈ usedTerms) :
    selectMeaningTestEntry state usedTerms r = .Success none := by
  have hnil : state.entries.filter (fun e => !(usedTerms.contains e.term)) = [] := by
    apply List.filter_eq_nil_iff.mpr
    intro e he
    simpa using hall e he
  have hstep : selectMeaningTestEntry state usedTerms r =
      match chooseWeightedEntry
          (state.entries.filter (fun e => !(usedTerms.contains e.term))) r with
      | none => succeed none
      | some chosen => succeed (some (TestSelection.mk chosen none)) := rfl
  rw [hstep, hnil]
  have hnone : chooseWeightedEntry ([] : List Entry) r = none := rfl
  rw [hnone]
  rfl

/-- Witness for C6 with both stored terms used up. -/
theorem claim_C6_exhaustion_witness :
    selectMeaningTestEntry
      (AppState.mk (Dictionary.mk "d" (Language.mk "en" "ja"))
        [Entry.mk "a" ["x"] none 0, Entry.mk "b" ["y"] none 3])
      ["b", "a"] (1/2) = .Success none :=
  claim_C6_exhaustion
    (AppState.mk (Dictionary.mk "d" (Language.mk "en" "ja"))
      [Entry.mk "a" ["x"] none 0, Entry.mk "b" ["y"] none 3])
    ["b", "a"] (1/2) (by decide)

end Lexica
